import Mathlib

/-!
Keyword index construction, chunk sanitisation and the migration loop of clayway-pg2fs.

A shallow embedding of `main.go`.  The program reads rows of the `content` table, derives
for every row a search record (title, subtitle, published flag, prefix keywords) and a
content record (sanitised chunks, exact keywords) and writes both to the document store.

Go strings are byte sequences: `len` counts bytes and `w[:i]` cuts at a byte offset.  They
are embedded as lists of natural numbers (one number below 256 per byte).
-/

namespace Pg2fs

/-! ## Strings -/

/-- A Go `string`: its bytes in order. -/
abbrev GoString := List Nat

/-- UTF-8 encoding of one Unicode scalar value. -/
def utf8Char (c : Char) : List Nat :=
  let n := c.toNat
  if n < 0x80 then [n]
  else if n < 0x800 then [0xC0 + n / 0x40, 0x80 + n % 0x40]
  else if n < 0x10000 then [0xE0 + n / 0x1000, 0x80 + n / 0x40 % 0x40, 0x80 + n % 0x40]
  else [0xF0 + n / 0x40000, 0x80 + n / 0x1000 % 0x40, 0x80 + n / 0x40 % 0x40, 0x80 + n % 0x40]

/-- The Go string holding the UTF-8 encoding of a text (how Go source literals and
database text reach the program). -/
def utf8 (s : String) : GoString := s.data.flatMap utf8Char

/-- The byte of the space character, the separator of `strings.Split(_, " ")`. -/
def spaceByte : Nat := 0x20

/-- The byte of the comma, the separator of `strings.Split(_, ",")`. -/
def commaByte : Nat := 0x2C

/-- Go's `strings.Split(s, sep)` for a one-byte separator: the pieces of `s` between
consecutive separators; a string without separator is returned whole, and the empty
string yields one empty piece. -/
def split (sep : Nat) : GoString → List GoString
  | [] => [[]]
  | c :: s =>
    if c = sep then [] :: split sep s
    else match split sep s with
      | [] => [[c]]
      | p :: ps => (c :: p) :: ps

/-- Go's `strings.ToLower`.  A string of ASCII bytes only takes the library's fast path, which
adds 32 to every byte between 0x41 (A) and 0x5A (Z).  Any other string is handed to
`strings.Map(unicode.ToLower, s)`, whose Unicode case tables are not part of the
program: it is the parameter `mapLower`. -/
def toLower (mapLower : GoString → GoString) (s : GoString) : GoString :=
  if s.all (fun c => decide (c < 0x80)) then
    s.map (fun c => if 0x41 ≤ c ∧ c ≤ 0x5A then c + 0x20 else c)
  else mapLower s

/-- Go's `slices.Sorted(maps.Keys(m))` for the map `m` into which the keys `inserted` were
stored one after the other (`m[k] = 0`): a map holds every key once, and `slices.Sorted`
returns the keys in ascending order of Go's string comparison (bytewise lexicographic). -/
def sortedKeys (inserted : List GoString) : List GoString :=
  inserted.dedup.insertionSort (· ≤ ·)

/-! ## Keyword construction (lines 181-208) -/

/-- The bound `max` of the prefix loop (lines 195-198). -/
def prefixMax (w : GoString) : Int :=
  if w.length ≥ 6 then 6 else (w.length : Int) - 1

/-- The keys stored in `extraKeys` for one atomic word `w`, in the order of the
statements: `w[:i]` for `i := 2; i <= max; i++` when `len(w) > 2`, then `w` itself. -/
def wordTokens (w : GoString) : List GoString :=
  (if w.length > 2 then
      (List.range' 2 (prefixMax w - 1).toNat).map (fun i => w.take i)
    else []) ++ [w]

/-- Lines 184-189: the keys stored in `keys`, for the lower-cased pool `keywords`. -/
def exactKeys (keywords : List GoString) : List GoString :=
  keywords.flatMap (split spaceByte)

/-- Lines 192-207: the keys stored in `extraKeys`, for the lower-cased pool `keywords`. -/
def searchKeys (keywords : List GoString) : List GoString :=
  (keywords.flatMap (split spaceByte)).flatMap wordTokens

/-! ## Column values and the per-row column loop (lines 124-179) -/

/-- A column value as `rows.Scan` leaves it in an `interface{}`.  The program looks at
such a value only through the type switch, `fmt.Sprintf("%v", _)`, a type assertion and
the comparison with `nil`; a value of a type it never asserts (`float64`, or any type
that reaches the `default` case, such as `time.Time`) is therefore kept as the text that
`%v` prints for it. -/
inductive Value where
  | int64 (n : Int)
  | float64 (shown : GoString)
  | bool (b : Bool)
  | bytes (s : GoString)
  | string (s : GoString)
  | null
  | other (shown : GoString)
  deriving DecidableEq

/-- The value stored in `docData[col]` by the type switch (lines 134-149). -/
inductive DocValue where
  | int64 (n : Int)
  | float64 (shown : GoString)
  | bool (b : Bool)
  | string (s : GoString)
  | null
  | other (shown : GoString)
  deriving DecidableEq

/-- Lines 134-149: a `[]byte` is converted to a string, every other value is stored as
it is. -/
def docValue : Value → DocValue
  | .int64 n => .int64 n
  | .float64 f => .float64 f
  | .bool b => .bool b
  | .bytes s => .string s
  | .string s => .string s
  | .null => .null
  | .other x => .other x

/-- Decimal digits of a natural number, as bytes. -/
def natDigits (n : Nat) : GoString := (Nat.toDigits 10 n).map Char.toNat

/-- Go's `fmt.Sprintf("%v", v)` on a stored column value. -/
def sprintV : DocValue → GoString
  | .int64 n => if n < 0 then 0x2D :: natDigits n.natAbs else natDigits n.natAbs
  | .float64 shown => shown
  | .bool b => if b then utf8 "true" else utf8 "false"
  | .string s => s
  | .null => utf8 "<nil>"
  | .other shown => shown

/-- The type assertion `v.(string)`; `none` is the runtime panic. -/
def assertString : DocValue → Option GoString
  | .string s => some s
  | _ => none

/-- The type assertion `v.(bool)`; `none` is the runtime panic. -/
def assertBool : DocValue → Option Bool
  | .bool b => some b
  | _ => none

/-- The slice expression `s[lo:]`; `none` is the panic "slice bounds out of range". -/
def sliceFrom (s : GoString) (lo : Int) : Option GoString :=
  if 0 ≤ lo ∧ lo ≤ s.length then some (s.drop lo.toNat) else none

/-- The slice expression `s[:hi]`; `none` is the panic "slice bounds out of range". -/
def sliceTo (s : GoString) (hi : Int) : Option GoString :=
  if 0 ≤ hi ∧ hi ≤ s.length then some (s.take hi.toNat) else none

structure SearchRecord where
  Title : GoString
  SubTitle : GoString
  Keywords : List GoString
  Published : Bool
  deriving DecidableEq

/-- A chunk of a content document; `ChunkType` is the field `Type` of the source. -/
structure Chunk where
  ChunkType : GoString
  Data : GoString
  deriving DecidableEq

structure ContentRecord where
  Chunks : List Chunk
  Keywords : List GoString
  deriving DecidableEq

/-- One scanned row: the column names with their values, in column order. -/
abbrev Row := List (GoString × Value)

def colId : GoString := utf8 "id"
def colTitle : GoString := utf8 "title"
def colSubtitle : GoString := utf8 "subtitle"
def colPublished : GoString := utf8 "published"
def colTags : GoString := utf8 "tags"

/-- The variables the column loop updates: `docID`, `searchRow` and the pool `keywords`. -/
structure LoopState where
  docID : GoString
  searchRow : SearchRecord
  keywords : List GoString
  deriving DecidableEq

/-- Lines 125-129: `docID` is the zero string, `searchRow` the zero record, `keywords`
empty. -/
def initLoop : LoopState :=
  { docID := [], searchRow := { Title := [], SubTitle := [], Keywords := [], Published := false },
    keywords := [] }

/-- Lines 152-154. -/
def setDocID (col : GoString) (v : DocValue) (st : LoopState) : LoopState :=
  if col = colId then { st with docID := sprintV v } else st

/-- Lines 155-157. -/
def setTitle (col : GoString) (v : DocValue) (st : LoopState) : Option LoopState :=
  if col = colTitle then
    (assertString v).map (fun s => { st with searchRow := { st.searchRow with Title := s } })
  else some st

/-- Lines 158-160. -/
def setSubTitle (col : GoString) (v : DocValue) (st : LoopState) : Option LoopState :=
  if col = colSubtitle then
    (assertString v).map (fun s => { st with searchRow := { st.searchRow with SubTitle := s } })
  else some st

/-- Lines 162-164. -/
def setPublished (col : GoString) (v : DocValue) (st : LoopState) : Option LoopState :=
  if col = colPublished then
    (assertBool v).map (fun b => { st with searchRow := { st.searchRow with Published := b } })
  else some st

/-- Lines 166-168: the title words are appended on every column processed while the
title is non-empty. -/
def addTitleWords (st : LoopState) : LoopState :=
  if st.searchRow.Title.length > 0 then
    { st with keywords := st.keywords ++ split spaceByte st.searchRow.Title }
  else st

/-- Lines 172-175: the tag list of a non-nil `tags` value. -/
def tagWords (v : DocValue) : Option (List GoString) := do
  let foo ← assertString v
  let foo ← sliceFrom foo 1
  let foo ← sliceTo foo ((foo.length : Int) - 1)
  pure (split commaByte foo)

/-- Lines 170-178. -/
def addTags (col : GoString) (v : DocValue) (st : LoopState) : Option LoopState :=
  if col = colTags then
    if v ≠ DocValue.null then
      (tagWords v).map (fun bar => { st with keywords := st.keywords ++ bar })
    else some st
  else some st

/-- The body of the column loop (lines 131-178) for one column. -/
def colStep (st : LoopState) (x : GoString × Value) : Option LoopState := do
  let v := docValue x.2
  let st1 := setDocID x.1 v st
  let st2 ← setTitle x.1 v st1
  let st3 ← setSubTitle x.1 v st2
  let st4 ← setPublished x.1 v st3
  addTags x.1 v (addTitleWords st4)

/-- The column loop (lines 130-179). -/
def columnLoop (st : LoopState) : Row → Option LoopState
  | [] => some st
  | x :: rest => (colStep st x).bind (fun st1 => columnLoop st1 rest)

/-- What lines 124-208 compute for a row: the document key and both keyword lists. -/
structure RowResult where
  docID : GoString
  searchRow : SearchRecord
  contentKeywords : List GoString
  deriving DecidableEq

/-- Lines 124-208 for one row; `none` is a runtime panic. -/
def transformRow (mapLower : GoString → GoString) (row : Row) : Option RowResult :=
  (columnLoop initLoop row).map (fun st =>
    let keywords := st.keywords.map (toLower mapLower)
    { docID := st.docID,
      searchRow := { st.searchRow with
        Keywords := st.searchRow.Keywords ++ sortedKeys (searchKeys keywords) },
      contentKeywords := [] ++ sortedKeys (exactKeys keywords) })

/-! ## Chunk sanitisation (lines 306-310) -/

/-- Go's `strings.Index(s, substr)`: the offset of the first occurrence of `substr` in `s`;
`none` stands for -1. -/
def index (s substr : GoString) : Option Nat :=
  match s with
  | [] => if substr = [] then some 0 else none
  | c :: t =>
    if substr.isPrefixOf (c :: t) then some 0
    else (index t substr).map (fun i => i + 1)

/-- The loop of `strings.Count(s, substr)` for a non-empty `substr`: the number of
non-overlapping occurrences, found from left to right.  `fuel` bounds the number of
iterations; `len(s) + 1` is enough. -/
def countLoop (substr : GoString) : Nat → GoString → Nat
  | 0, _ => 0
  | fuel + 1, s =>
    match index s substr with
    | none => 0
    | some i => countLoop substr fuel (s.drop (i + substr.length)) + 1

/-- Go's `strings.Count(s, substr)` for a non-empty `substr`. -/
def count (s substr : GoString) : Nat := countLoop substr (s.length + 1) s

/-- The replacement loop of `strings.Replace` for a non-empty `old`, on the part of the
string that starts at `start`: `n` times, copy the text up to the next occurrence of
`old` and write `new`; then copy what is left. -/
def replaceLoop (old new : GoString) : Nat → GoString → GoString
  | 0, s => s
  | n + 1, s =>
    match index s old with
    | none => s
    | some j => s.take j ++ new ++ replaceLoop old new n (s.drop (j + old.length))

/-- Go's `strings.ReplaceAll(s, old, new)` for a non-empty `old` (the only use the program
makes of it): every non-overlapping occurrence of `old`, from left to right, is replaced
by `new`. -/
def replaceAll (s old new : GoString) : GoString :=
  if old = new then s
  else
    let m := count s old
    if m = 0 then s else replaceLoop old new m s

/-- The text `<img src="data:image/png;base64,` that `cleanData` looks for. -/
def imgTag : GoString := utf8 "<img src=\"data:image/png;base64,"

/-- The text that `cleanData` puts in its place. -/
def styledImgTag : GoString :=
  utf8 "<img style=\"max-width: 90% !important;\" src=\"data:image/png;base64,"

/-- Lines 306-310. -/
def cleanData (data : GoString) : GoString :=
  replaceAll data imgTag styledImgTag

/-! ## Chunk assembly (lines 238-304) -/

def colChunkType : GoString := utf8 "chunk_type"
def colData : GoString := utf8 "data"

/-- Lines 271-301 for one scanned chunk row; `none` is a failed type assertion. -/
def chunkLoop (c : Chunk) : Row → Option Chunk
  | [] => some c
  | x :: rest =>
    let v := docValue x.2
    (if x.1 = colChunkType then (assertString v).map (fun s => { c with ChunkType := s })
      else some c).bind (fun c1 =>
    (if x.1 = colData then (assertString v).map (fun s => { c1 with Data := cleanData s })
      else some c1).bind (fun c2 => chunkLoop c2 rest))

/-- Lines 264-303: the chunks of the scanned rows, in the order of the query; a row
whose scan failed (`none`) is skipped. -/
def chunkRows : List (Option Row) → Option (List Chunk)
  | [] => some []
  | none :: rest => chunkRows rest
  | some r :: rest =>
    (chunkLoop { ChunkType := [], Data := [] } r).bind (fun c =>
      (chunkRows rest).map (fun cs => c :: cs))

/-- The function `makeContent`.  The database is the parameter `query`: for a content
id it gives the rows of the chunk query in `position` order, or `none` when the query
fails (`log.Fatalf`).  The result `none` means that the program stopped. -/
def makeContent (query : GoString → Option (List (Option Row))) (id : GoString) :
    Option (List Chunk) :=
  (query id).bind chunkRows

/-! ## The migration loop (lines 115-229) -/

/-- A document handed to `DocumentRef.Set`. -/
inductive Document where
  | search (r : SearchRecord)
  | content (r : ContentRecord)
  deriving DecidableEq

/-- One call `Collection(collection).Doc(docID).Set(ctx, doc)`. -/
structure WriteReq where
  collection : GoString
  docID : GoString
  doc : Document
  deriving DecidableEq

def searchCollection : GoString := utf8 "search"
def contentCollection : GoString := utf8 "content"

/-- The document store: a state and a write operation that returns the new state and
whether the write succeeded (`err == nil`). -/
structure Sink (σ : Type) where
  write : σ → WriteReq → σ × Bool

/-- The state of the migration loop: the store, the counter `count`, every write issued
so far with its outcome, and whether the program has stopped (panic or `log.Fatalf`). -/
structure RunState (σ : Type) where
  store : σ
  count : Nat
  issued : List (WriteReq × Bool)
  stopped : Bool

/-- The write of line 215: the search record, under the key `docID`. -/
def searchWrite (r : RowResult) : WriteReq :=
  ⟨searchCollection, r.docID, Document.search r.searchRow⟩

/-- The write of line 223: the content record, under the key `docID`. -/
def contentWrite (r : RowResult) (chunks : List Chunk) : WriteReq :=
  ⟨contentCollection, r.docID,
    Document.content { Chunks := chunks, Keywords := r.contentKeywords }⟩

/-- Lines 209-228 for a transformed row: the chunks are fetched and the search document
is written; if that write fails the loop continues with the next row (line 218);
otherwise the content document is written and, without a look at the outcome of that
second write, `count` is incremented (lines 223-225). -/
def writeRow {σ : Type} (sink : Sink σ) (query : GoString → Option (List (Option Row)))
    (st : RunState σ) (r : RowResult) : RunState σ :=
  match makeContent query r.docID with
  | none => { st with stopped := true }
  | some chunks =>
    let o1 := sink.write st.store (searchWrite r)
    if o1.2 then
      let o2 := sink.write o1.1 (contentWrite r chunks)
      { store := o2.1, count := st.count + 1,
        issued := st.issued ++ [(searchWrite r, true), (contentWrite r chunks, o2.2)],
        stopped := false }
    else
      { store := o1.1, count := st.count, issued := st.issued ++ [(searchWrite r, false)],
        stopped := false }

/-- The body of the row loop (lines 117-228); a row whose scan failed is `none`. -/
def rowStep {σ : Type} (mapLower : GoString → GoString) (sink : Sink σ)
    (query : GoString → Option (List (Option Row))) (st : RunState σ) :
    Option Row → RunState σ
  | none => st
  | some row =>
    match transformRow mapLower row with
    | none => { st with stopped := true }
    | some r => writeRow sink query st r

/-- The row loop (lines 115-229) over the scanned rows of the content query. -/
def migrate {σ : Type} (mapLower : GoString → GoString) (sink : Sink σ)
    (query : GoString → Option (List (Option Row))) (st : RunState σ) :
    List (Option Row) → RunState σ
  | [] => st
  | r :: rest =>
    let st1 := rowStep mapLower sink query st r
    if st1.stopped then st1 else migrate mapLower sink query st1 rest

/-- The whole run, from an empty counter. -/
def run {σ : Type} (mapLower : GoString → GoString) (sink : Sink σ)
    (query : GoString → Option (List (Option Row))) (store : σ) (rows : List (Option Row)) :
    RunState σ :=
  migrate mapLower sink query { store := store, count := 0, issued := [], stopped := false } rows

/-! ## Notions used to state the properties -/

/-- The values with which the body of the column loop does not panic on the column
`x`: `title` and `subtitle` hold a string, `published` holds a bool, `tags` holds nil
or a string from which lines 173-174 can cut both ends. -/
def colOk (x : GoString × Value) : Bool :=
  (x.1 ≠ colTitle || (assertString (docValue x.2)).isSome) &&
  (x.1 ≠ colSubtitle || (assertString (docValue x.2)).isSome) &&
  (x.1 ≠ colPublished || (assertBool (docValue x.2)).isSome) &&
  (x.1 ≠ colTags || docValue x.2 = DocValue.null || (tagWords (docValue x.2)).isSome)

/-- The state of the column loop in terms of the row, whatever the order of its
columns: each variable holds the value of its column (or its zero value when the row
has no such column), and the pool holds the words of a non-empty title and the tags. -/
structure RowInv (row : Row) (st : LoopState) : Prop where
  docID_mem : ∀ v, (colId, v) ∈ row → st.docID = sprintV (docValue v)
  docID_absent : colId ∉ row.map Prod.fst → st.docID = []
  title_mem : ∀ v, (colTitle, v) ∈ row → assertString (docValue v) = some st.searchRow.Title
  title_absent : colTitle ∉ row.map Prod.fst → st.searchRow.Title = []
  subtitle_mem : ∀ v, (colSubtitle, v) ∈ row →
    assertString (docValue v) = some st.searchRow.SubTitle
  subtitle_absent : colSubtitle ∉ row.map Prod.fst → st.searchRow.SubTitle = []
  published_mem : ∀ v, (colPublished, v) ∈ row →
    assertBool (docValue v) = some st.searchRow.Published
  published_absent : colPublished ∉ row.map Prod.fst → st.searchRow.Published = false
  keywordsField : st.searchRow.Keywords = []
  pool : ∀ w, w ∈ st.keywords ↔
    (0 < st.searchRow.Title.length ∧ w ∈ split spaceByte st.searchRow.Title) ∨
    (∃ v bar, (colTags, v) ∈ row ∧ docValue v ≠ DocValue.null ∧
      tagWords (docValue v) = some bar ∧ w ∈ bar)

/-- A store that accepts every write. -/
def acceptingSink : Sink Unit := ⟨fun _ _ => ((), true)⟩

/-- A store that accepts the writes to the search collection and rejects all others. -/
def searchOnlySink : Sink Unit :=
  ⟨fun _ w => ((), decide (w.collection = searchCollection))⟩

/-- A chunk query that finds no chunk. -/
def noChunks : GoString → Option (List (Option Row)) := fun _ => some []

/-- The collection, key and outcome of every write of a run, in order. -/
def writeLog {σ : Type} (st : RunState σ) : List (GoString × GoString × Bool) :=
  st.issued.map (fun p => (p.1.collection, p.1.docID, p.2))

/-- The row of the tag-parsing example of the specification, title before tags. -/
def algebraRow : Row :=
  [(colId, Value.int64 42), (colTitle, Value.string (utf8 "Intro to Algebra")),
    (colSubtitle, Value.string (utf8 "Basics")), (colPublished, Value.bool true),
    (colTags, Value.bytes (utf8 "\x7balgebra,geometry\x7d"))]

/-- The same row with its columns in another order, tags before title. -/
def algebraRowReordered : Row :=
  [(colTags, Value.bytes (utf8 "\x7balgebra,geometry\x7d")), (colPublished, Value.bool true),
    (colTitle, Value.string (utf8 "Intro to Algebra")), (colId, Value.int64 42),
    (colSubtitle, Value.string (utf8 "Basics"))]

/-- A logged write that is a successful write to the search collection. -/
def isSearchSuccess (p : WriteReq × Bool) : Bool :=
  decide (p.1.collection = searchCollection) && p.2

/-! ## Lower-casing -/

/-- On a string of ASCII bytes `toLower` does not consult its parameter. -/
theorem toLower_ascii (f g : GoString → GoString) (s : GoString)
    (h : s.all (fun c => decide (c < 0x80)) = true) : toLower f s = toLower g s := by
  unfold toLower
  rw [if_pos h, if_pos h]

/-! ## Sorted key lists -/

theorem mem_sortedKeys (l : List GoString) (t : GoString) : t ∈ sortedKeys l ↔ t ∈ l := by
  unfold sortedKeys
  rw [(List.perm_insertionSort (· ≤ ·) l.dedup).mem_iff, List.mem_dedup]

theorem sortedKeys_nodup (l : List GoString) : (sortedKeys l).Nodup :=
  (List.perm_insertionSort (· ≤ ·) l.dedup).nodup_iff.mpr (List.nodup_dedup l)

theorem sortedKeys_sorted_le (l : List GoString) : (sortedKeys l).Sorted (· ≤ ·) :=
  List.sorted_insertionSort (· ≤ ·) l.dedup

theorem sortedKeys_sorted_lt (l : List GoString) : (sortedKeys l).Sorted (· < ·) :=
  (sortedKeys_sorted_le l).lt_of_le (sortedKeys_nodup l)

theorem sortedKeys_congr {l l' : List GoString} (h : ∀ t, t ∈ l ↔ t ∈ l') :
    sortedKeys l = sortedKeys l' := by
  apply List.eq_of_perm_of_sorted _ (sortedKeys_sorted_le l) (sortedKeys_sorted_le l')
  rw [List.perm_ext_iff_of_nodup (sortedKeys_nodup l) (sortedKeys_nodup l')]
  intro t
  rw [mem_sortedKeys, mem_sortedKeys, h]

/-! ## Tokens of one word -/

theorem mem_wordTokens (w t : GoString) :
    t ∈ wordTokens w ↔
      t = w ∨ (2 < w.length ∧ ∃ i, 2 ≤ i ∧ i ≤ min (w.length - 1) 6 ∧ t = w.take i) := by
  unfold wordTokens prefixMax
  by_cases h2 : w.length > 2
  · simp only [h2, if_true, List.mem_append, List.mem_map, List.mem_range', List.mem_singleton]
    constructor
    · rintro (⟨i, ⟨k, hk, rfl⟩, rfl⟩ | h)
      · by_cases h6 : w.length ≥ 6
        · simp only [h6, if_true] at hk
          by_cases hk4 : k = 4
          · by_cases hl : w.length = 6
            · left; subst hk4; rw [List.take_of_length_le (by omega)]
            · right; exact ⟨trivial, 2 + 1 * k, by omega, by omega, rfl⟩
          · right; exact ⟨trivial, 2 + 1 * k, by omega, by omega, rfl⟩
        · simp only [h6, if_false] at hk
          right; exact ⟨trivial, 2 + 1 * k, by omega, by omega, rfl⟩
      · left; exact h
    · rintro (h | ⟨_, i, hi2, hi, rfl⟩)
      · right; exact h
      · left
        refine ⟨i, ⟨i - 2, ?_, by omega⟩, rfl⟩
        split <;> omega
  · simp only [h2, if_false, List.nil_append, List.mem_singleton]
    constructor
    · intro h; left; exact h
    · rintro (h | ⟨h, _⟩)
      · exact h
      · exact h.elim

theorem wordTokens_short (w : GoString) (h : w.length ≤ 2) : wordTokens w = [w] := by
  unfold wordTokens
  rw [if_neg (by omega)]
  rfl

theorem wordTokens_long (w : GoString) (h : 6 ≤ w.length) :
    wordTokens w = [w.take 2, w.take 3, w.take 4, w.take 5, w.take 6, w] := by
  unfold wordTokens prefixMax
  rw [if_pos (by omega), if_pos (by omega)]
  rfl

theorem wordTokens_three (w : GoString) (h : w.length = 3) : wordTokens w = [w.take 2, w] := by
  unfold wordTokens prefixMax
  rw [if_pos (by omega), if_neg (by omega), h]
  rfl

/-- Every index the loop of lines 200-202 uses in `w[:i]` is within the bounds of `w`:
the slice expression cannot panic. -/
theorem prefix_index_in_bounds (w : GoString) (i : Nat) (h2 : 2 < w.length)
    (hi : i ∈ List.range' 2 (prefixMax w - 1).toNat) : i ≤ w.length := by
  unfold prefixMax at hi
  rw [List.mem_range'] at hi
  obtain ⟨k, hk, rfl⟩ := hi
  split at hk <;> omega

/-- C1: for an atomic word `w` of `L = len(w)` bytes the keys stored in `extraKeys` are
`w` alone when `L <= 2`, and `w` together with the slices `w[0:i]`, `2 <= i <= min(L-1, 6)`,
when `L > 2` (the loop bound 6 used for `L >= 6` adds nothing else: for `L = 6` the slice
`w[0:6]` is `w`).  A word with `L > 6` gives its five slices of lengths 2..6 and itself, and
no slice of a length from 7 to `L-1`; a word with `L = 3` gives `w[0:2]` and `w`. -/
theorem wordTokens_spec (w : GoString) :
    (∀ t, t ∈ wordTokens w ↔
      t = w ∨ (2 < w.length ∧ ∃ i, 2 ≤ i ∧ i ≤ min (w.length - 1) 6 ∧ t = w.take i)) ∧
    (w.length ≤ 2 → ∀ t, t ∈ wordTokens w ↔ t = w) ∧
    (6 < w.length →
      wordTokens w = [w.take 2, w.take 3, w.take 4, w.take 5, w.take 6, w] ∧
      ∀ i, 7 ≤ i → i ≤ w.length - 1 → w.take i ∉ wordTokens w) ∧
    (w.length = 3 → wordTokens w = [w.take 2, w]) := by
  refine ⟨mem_wordTokens w, ?_, ?_, wordTokens_three w⟩
  · intro h t
    rw [wordTokens_short w h, List.mem_singleton]
  · intro h
    refine ⟨wordTokens_long w (by omega), ?_⟩
    intro i h7 hi hmem
    rw [wordTokens_long w (by omega)] at hmem
    have hlen : (w.take i).length = i := by rw [List.length_take]; omega
    simp only [List.mem_cons, List.mem_singleton, List.not_mem_nil, or_false] at hmem
    rcases hmem with h' | h' | h' | h' | h' | h' <;>
      · have := congrArg List.length h'
        rw [hlen] at this
        try simp only [List.length_take] at this
        omega

theorem wordTokens_spec_witness :
    wordTokens (utf8 "geometry") =
        [utf8 "ge", utf8 "geo", utf8 "geom", utf8 "geome", utf8 "geomet", utf8 "geometry"] ∧
      utf8 "geometr" ∉ wordTokens (utf8 "geometry") ∧
      wordTokens (utf8 "abc") = [utf8 "ab", utf8 "abc"] :=
  ⟨((wordTokens_spec (utf8 "geometry")).2.2.1 (by decide)).1,
   ((wordTokens_spec (utf8 "geometry")).2.2.1 (by decide)).2 7 (by decide) (by decide),
   (wordTokens_spec (utf8 "abc")).2.2.2 (by decide)⟩

/-- The defect behind C4: words of two characters that are longer than two bytes.  The
word `éé` has four bytes, and the loop stores two proper slices of it besides the word,
the second cut inside a character; the word `aé` has three bytes, and the loop stores
its first two bytes, again cut inside a character.  On the row whose title is `éé`
(lower-case already, so that lower-casing leaves it as it is) these slices are search
keywords. -/
theorem two_character_word_gets_prefixes :
    "éé".length = 2 ∧
      wordTokens (utf8 "éé") = [utf8 "é", [0xC3, 0xA9, 0xC3], utf8 "éé"] ∧
    "aé".length = 2 ∧
      wordTokens (utf8 "aé") = [[0x61, 0xC3], utf8 "aé"] ∧
    (transformRow id [(colTitle, Value.string (utf8 "éé"))]).map
        (fun r => r.searchRow.Keywords) =
      some [utf8 "é", [0xC3, 0xA9, 0xC3], utf8 "éé"] := by
  decide

/-! ## Occurrences and `strings.Index` -/

theorem index_eq_none_iff (P : GoString) : ∀ s : GoString, index s P = none ↔ ¬ P <:+: s
  | [] => by
    unfold index
    by_cases h : P = []
    · simp [h]
    · simp [h, List.infix_nil]
  | c :: t => by
    unfold index
    rw [List.infix_cons_iff]
    by_cases h : P.isPrefixOf (c :: t) = true
    · have h' : P <+: c :: t := List.isPrefixOf_iff_prefix.mp h
      simp [h, h']
    · have h' : ¬ P <+: c :: t := fun hp => h (List.isPrefixOf_iff_prefix.mpr hp)
      rw [if_neg h, Option.map_eq_none', index_eq_none_iff P t]
      tauto

theorem index_eq_some (P : GoString) (hP : P ≠ []) :
    ∀ (s : GoString) (j : Nat), index s P = some j →
      ∃ a b, s = a ++ P ++ b ∧ a.length = j ∧ ¬ P <:+: a
  | [], j, h => by
    unfold index at h
    simp [hP] at h
  | c :: t, j, h => by
    unfold index at h
    by_cases hp : P.isPrefixOf (c :: t) = true
    · rw [if_pos hp] at h
      obtain ⟨b, hb⟩ := List.isPrefixOf_iff_prefix.mp hp
      refine ⟨[], b, by simpa using hb.symm, by simpa using Option.some.inj h, ?_⟩
      rw [List.infix_nil]
      exact hP
    · rw [if_neg hp, Option.map_eq_some'] at h
      obtain ⟨j', hj', rfl⟩ := h
      obtain ⟨a, b, hs, ha, hna⟩ := index_eq_some P hP t j' hj'
      refine ⟨c :: a, b, by simp [hs], by simp [ha], ?_⟩
      rw [List.infix_cons_iff]
      rintro (hpre | hin)
      · apply hp
        apply List.isPrefixOf_iff_prefix.mpr
        rw [hs]
        exact hpre.trans ⟨P ++ b, by simp⟩
      · exact hna hin

/-- A text that starts with the byte `c` and has no other `c`, put before a second text
that starts with `c`: it is a beginning of `a ++ Q ++ v` only if it is a beginning of `a`
or `a` is empty. -/
theorem prefix_of_anchored {c : Nat} {p q a v : GoString} (hc : c ∉ p)
    (h : c :: p <+: a ++ (c :: q) ++ v) : c :: p <+: a ∨ a = [] := by
  obtain ⟨t, ht⟩ := h
  rw [List.append_assoc a, List.append_eq_append_iff] at ht
  rcases ht with ⟨x, hx, _⟩ | ⟨y, hy, hy'⟩
  · left; exact ⟨x, hx.symm⟩
  · cases a with
    | nil => right; rfl
    | cons d a' =>
      left
      cases y with
      | nil => exact ⟨[], by rw [hy]; simp⟩
      | cons e y' =>
        exfalso
        simp only [List.cons_append, List.cons.injEq] at hy hy'
        apply hc
        rw [hy.2, hy'.1]
        simp

/-- An occurrence of an anchored text `P` in `u ++ Q ++ v`, where `Q` is anchored at the
same byte, lies in `u`, or in `v`, or starts where `Q` starts. -/
theorem infix_of_anchored {c : Nat} {p q u v : GoString} (hp : c ∉ p) (hq : c ∉ q)
    (h : c :: p <:+: u ++ (c :: q) ++ v) :
    c :: p <:+: u ∨ c :: p <+: (c :: q) ++ v ∨ c :: p <:+: v := by
  obtain ⟨s, t, hst⟩ := h
  rw [List.append_assoc s, List.append_assoc u, List.append_eq_append_iff] at hst
  rcases hst with ⟨a, hu, ha⟩ | ⟨x, hs, hx⟩
  · have hpre : c :: p <+: a ++ (c :: q) ++ v := ⟨t, by rw [ha, List.append_assoc]⟩
    rcases prefix_of_anchored hp hpre with h1 | h1
    · left
      rw [hu]
      exact (List.IsPrefix.isInfix h1).trans (List.infix_append' s a [] |> fun h => by simpa using h)
    · right; left
      subst h1
      exact ⟨t, by simpa using ha⟩
  · cases x with
    | nil => right; left; exact ⟨t, by simpa using hx.symm⟩
    | cons d x' =>
      right; right
      simp only [List.cons_append, List.cons.injEq] at hx
      obtain ⟨_, hx⟩ := hx
      rw [List.append_eq_append_iff] at hx
      rcases hx with ⟨a, _, hv⟩ | ⟨b, hq', hb⟩
      · exact ⟨a, t, by simp [hv]⟩
      · cases b with
        | nil => exact ⟨[], t, by simpa using hb⟩
        | cons e b' =>
          exfalso
          simp only [List.cons_append, List.cons.injEq] at hb
          apply hq
          rw [hq', ← hb.1]
          simp

/-! ## `strings.ReplaceAll` and `cleanData` -/

theorem replaceAll_eq_loop (s old new : GoString) (h : old ≠ new) :
    replaceAll s old new = replaceLoop old new (count s old) s := by
  unfold replaceAll
  rw [if_neg h]
  by_cases hm : count s old = 0
  · simp only [hm, if_true]
    rfl
  · simp only [hm, if_false]

theorem replaceAll_of_absent (s old new : GoString) (h : ¬ old <:+: s) :
    replaceAll s old new = s := by
  have hi : index s old = none := (index_eq_none_iff old s).mpr h
  unfold replaceAll count countLoop
  simp only [hi]
  split <;> rfl

theorem index_append_anchored {c : Nat} {p : GoString} (hp : c ∉ p) (b : GoString) :
    ∀ a : GoString, ¬ c :: p <:+: a → index (a ++ (c :: p) ++ b) (c :: p) = some a.length
  | [], _ => by
    have : (c :: p).isPrefixOf (c :: p ++ b) = true :=
      List.isPrefixOf_iff_prefix.mpr ⟨b, rfl⟩
    simp only [List.nil_append, List.cons_append, List.length_nil] at this ⊢
    unfold index
    rw [if_pos this]
  | d :: a, h => by
    rw [List.infix_cons_iff] at h
    have hnot : ¬ (c :: p).isPrefixOf (d :: a ++ (c :: p) ++ b) = true := by
      intro hpre
      rcases prefix_of_anchored hp (List.isPrefixOf_iff_prefix.mp hpre) with h1 | h1
      · exact h (Or.inl h1)
      · exact List.cons_ne_nil _ _ h1
    have ih := index_append_anchored hp b a (fun hin => h (Or.inr hin))
    simp only [List.cons_append] at hnot ih ⊢
    unfold index
    rw [if_neg hnot, ih]
    rfl

theorem replaceAll_single {c : Nat} {p : GoString} (hp : c ∉ p) (new a b : GoString)
    (hnew : c :: p ≠ new) (ha : ¬ c :: p <:+: a) (hb : ¬ c :: p <:+: b) :
    replaceAll (a ++ (c :: p) ++ b) (c :: p) new = a ++ new ++ b := by
  have hi := index_append_anchored hp b a ha
  have hbi : index b (c :: p) = none := (index_eq_none_iff _ b).mpr hb
  have hdrop : (a ++ (c :: p) ++ b).drop (a.length + (c :: p).length) = b := by
    rw [← List.length_append, List.drop_left']
    rfl
  have htake : (a ++ (c :: p) ++ b).take a.length = a := by
    rw [List.append_assoc, List.take_left']
    rfl
  have hcount : count (a ++ (c :: p) ++ b) (c :: p) = 1 := by
    unfold count countLoop
    simp only [hi, hdrop]
    have : (a ++ c :: p ++ b).length = (a.length + p.length + b.length) + 1 := by
      simp only [List.length_append, List.length_cons]; omega
    rw [this]
    unfold countLoop
    simp only [hbi]
  rw [replaceAll_eq_loop _ _ _ hnew, hcount]
  unfold replaceLoop
  simp only [hi, htake, hdrop]
  rfl

theorem replaceLoop_no_occurrence {c : Nat} {p q : GoString} (hp : c ∉ p) (hq : c ∉ q)
    (hpq : ¬ c :: p <+: c :: q) (hlen : p.length ≤ q.length) :
    ∀ (fuel : Nat) (s : GoString), s.length < fuel →
      ¬ c :: p <:+: replaceLoop (c :: p) (c :: q) (countLoop (c :: p) fuel s) s
  | 0, _, h => by omega
  | fuel + 1, s, h => by
    unfold countLoop
    cases hi : index s (c :: p) with
    | none =>
      simp only []
      unfold replaceLoop
      exact (index_eq_none_iff _ s).mp hi
    | some j =>
      simp only []
      unfold replaceLoop
      simp only [hi]
      obtain ⟨a, b, hs, ha, hna⟩ := index_eq_some (c :: p) (List.cons_ne_nil _ _) s j hi
      have hdrop : s.drop (j + (c :: p).length) = b := by
        rw [hs, ← ha, ← List.length_append, List.drop_left']
        rfl
      have htake : s.take j = a := by
        rw [hs, ← ha, List.append_assoc, List.take_left']
        rfl
      have hb : b.length < fuel := by
        have := congrArg List.length hs
        simp only [List.length_append, List.length_cons] at this
        omega
      rw [hdrop, htake]
      intro hin
      rcases infix_of_anchored hp hq hin with h1 | h1 | h1
      · exact hna h1
      · apply hpq
        exact List.prefix_of_prefix_length_le h1 ⟨_, rfl⟩
          (by simp only [List.length_cons]; omega)
      · exact replaceLoop_no_occurrence hp hq hpq hlen fuel b hb h1

theorem imgTag_anchored : ∃ p, imgTag = 60 :: p ∧ 60 ∉ p := ⟨imgTag.tail, by decide, by decide⟩

theorem styledImgTag_anchored : ∃ q, styledImgTag = 60 :: q ∧ 60 ∉ q :=
  ⟨styledImgTag.tail, by decide, by decide⟩

theorem cleanData_of_absent (d : GoString) (h : ¬ imgTag <:+: d) : cleanData d = d :=
  replaceAll_of_absent d imgTag styledImgTag h

theorem cleanData_no_occurrence (d : GoString) : ¬ imgTag <:+: cleanData d := by
  obtain ⟨p, hP, hp⟩ := imgTag_anchored
  obtain ⟨q, hR, hq⟩ := styledImgTag_anchored
  have hne : imgTag ≠ styledImgTag := by decide
  have hpre : ¬ imgTag <+: styledImgTag := by decide
  have hlen : imgTag.length ≤ styledImgTag.length := by decide
  unfold cleanData
  rw [replaceAll_eq_loop _ _ _ hne]
  unfold count
  rw [hP, hR] at hpre hlen ⊢
  exact replaceLoop_no_occurrence hp hq hpre (by simpa using hlen) _ d (Nat.lt_succ_self _)

/-- C6: with `P = imgTag` and `R = styledImgTag`, `cleanData` leaves a text without
occurrence of `P` as it is, and turns `a ++ P ++ b` into `a ++ R ++ b` when neither `a` nor
`b` has an occurrence of `P`; on the data of the specification the inline PNG tag gets the
style, and an `<img>` tag with an external address is left as it is. -/
theorem cleanData_spec :
    (∀ d : GoString, ¬ imgTag <:+: d → cleanData d = d) ∧
    (∀ a b : GoString, ¬ imgTag <:+: a → ¬ imgTag <:+: b →
      cleanData (a ++ imgTag ++ b) = a ++ styledImgTag ++ b) ∧
    cleanData (utf8 "<img src=\"data:image/png;base64,AAAA\">") =
      utf8 "<img style=\"max-width: 90% !important;\" src=\"data:image/png;base64,AAAA\">" ∧
    cleanData (utf8 "<img src=\"https://example.org/a.png\">") =
      utf8 "<img src=\"https://example.org/a.png\">" := by
  refine ⟨cleanData_of_absent, ?_, by decide, by decide⟩
  intro a b ha hb
  obtain ⟨p, hP, hp⟩ := imgTag_anchored
  have hne : imgTag ≠ styledImgTag := by decide
  unfold cleanData
  rw [hP] at ha hb hne ⊢
  exact replaceAll_single hp styledImgTag a b hne ha hb

/-- C10: the result of `cleanData` has no occurrence of the unstyled tag `imgTag`, and
`cleanData` is idempotent. -/
theorem cleanData_idempotent (d : GoString) :
    ¬ imgTag <:+: cleanData d ∧ cleanData (cleanData d) = cleanData d :=
  ⟨cleanData_no_occurrence d, cleanData_of_absent _ (cleanData_no_occurrence d)⟩

/-! ## The column loop -/

theorem colStep_fields (st st' : LoopState) (x : GoString × Value)
    (h : colStep st x = some st') :
    st'.docID = (if x.1 = colId then sprintV (docValue x.2) else st.docID) ∧
    (if x.1 = colTitle then assertString (docValue x.2) = some st'.searchRow.Title
      else st'.searchRow.Title = st.searchRow.Title) ∧
    (if x.1 = colSubtitle then assertString (docValue x.2) = some st'.searchRow.SubTitle
      else st'.searchRow.SubTitle = st.searchRow.SubTitle) ∧
    (if x.1 = colPublished then assertBool (docValue x.2) = some st'.searchRow.Published
      else st'.searchRow.Published = st.searchRow.Published) ∧
    st'.searchRow.Keywords = st.searchRow.Keywords ∧
    ∃ bar, (if x.1 = colTags ∧ docValue x.2 ≠ DocValue.null
        then tagWords (docValue x.2) = some bar else bar = []) ∧
      st'.keywords = st.keywords ++
        (if 0 < st'.searchRow.Title.length then split spaceByte st'.searchRow.Title else [])
        ++ bar := by
  unfold colStep at h
  simp only [Option.bind_eq_bind, Option.bind_eq_some] at h
  obtain ⟨st2, h2, st3, h3, st4, h4, h5⟩ := h
  have e1 : (setDocID x.1 (docValue x.2) st).docID =
        (if x.1 = colId then sprintV (docValue x.2) else st.docID) ∧
      (setDocID x.1 (docValue x.2) st).keywords = st.keywords ∧
      (setDocID x.1 (docValue x.2) st).searchRow = st.searchRow := by
    unfold setDocID
    split <;> exact ⟨rfl, rfl, rfl⟩
  have e2 : st2.docID = (setDocID x.1 (docValue x.2) st).docID ∧
      st2.keywords = (setDocID x.1 (docValue x.2) st).keywords ∧
      st2.searchRow.SubTitle = (setDocID x.1 (docValue x.2) st).searchRow.SubTitle ∧
      st2.searchRow.Published = (setDocID x.1 (docValue x.2) st).searchRow.Published ∧
      st2.searchRow.Keywords = (setDocID x.1 (docValue x.2) st).searchRow.Keywords ∧
      (if x.1 = colTitle then assertString (docValue x.2) = some st2.searchRow.Title
        else st2.searchRow.Title = (setDocID x.1 (docValue x.2) st).searchRow.Title) := by
    unfold setTitle at h2
    by_cases hc : x.1 = colTitle
    · rw [if_pos hc, Option.map_eq_some'] at h2
      obtain ⟨s, hs, rfl⟩ := h2
      rw [if_pos hc]
      exact ⟨rfl, rfl, rfl, rfl, rfl, hs⟩
    · rw [if_neg hc] at h2
      cases h2
      rw [if_neg hc]
      exact ⟨rfl, rfl, rfl, rfl, rfl, rfl⟩
  obtain ⟨z1, z2, z3⟩ := e1
  rw [z3] at e2
  rw [z2] at e2
  have e3 : st3.docID = st2.docID ∧ st3.keywords = st2.keywords ∧
      st3.searchRow.Title = st2.searchRow.Title ∧
      st3.searchRow.Published = st2.searchRow.Published ∧
      st3.searchRow.Keywords = st2.searchRow.Keywords ∧
      (if x.1 = colSubtitle then assertString (docValue x.2) = some st3.searchRow.SubTitle
        else st3.searchRow.SubTitle = st2.searchRow.SubTitle) := by
    unfold setSubTitle at h3
    by_cases hc : x.1 = colSubtitle
    · rw [if_pos hc, Option.map_eq_some'] at h3
      obtain ⟨s, hs, rfl⟩ := h3
      rw [if_pos hc]
      exact ⟨rfl, rfl, rfl, rfl, rfl, hs⟩
    · rw [if_neg hc] at h3
      cases h3
      rw [if_neg hc]
      exact ⟨rfl, rfl, rfl, rfl, rfl, rfl⟩
  have e4 : st4.docID = st3.docID ∧ st4.keywords = st3.keywords ∧
      st4.searchRow.Title = st3.searchRow.Title ∧
      st4.searchRow.SubTitle = st3.searchRow.SubTitle ∧
      st4.searchRow.Keywords = st3.searchRow.Keywords ∧
      (if x.1 = colPublished then assertBool (docValue x.2) = some st4.searchRow.Published
        else st4.searchRow.Published = st3.searchRow.Published) := by
    unfold setPublished at h4
    by_cases hc : x.1 = colPublished
    · rw [if_pos hc, Option.map_eq_some'] at h4
      obtain ⟨s, hs, rfl⟩ := h4
      rw [if_pos hc]
      exact ⟨rfl, rfl, rfl, rfl, rfl, hs⟩
    · rw [if_neg hc] at h4
      cases h4
      rw [if_neg hc]
      exact ⟨rfl, rfl, rfl, rfl, rfl, rfl⟩
  have e5 : (addTitleWords st4).docID = st4.docID ∧
      (addTitleWords st4).searchRow = st4.searchRow ∧
      (addTitleWords st4).keywords = st4.keywords ++
        (if 0 < st4.searchRow.Title.length then split spaceByte st4.searchRow.Title else []) := by
    unfold addTitleWords
    split <;> simp [*]
  have e6 : st'.docID = (addTitleWords st4).docID ∧
      st'.searchRow = (addTitleWords st4).searchRow ∧
      ∃ bar, (if x.1 = colTags ∧ docValue x.2 ≠ DocValue.null
          then tagWords (docValue x.2) = some bar else bar = []) ∧
        st'.keywords = (addTitleWords st4).keywords ++ bar := by
    unfold addTags at h5
    by_cases hc : x.1 = colTags
    · by_cases hv : docValue x.2 ≠ DocValue.null
      · rw [if_pos hc, if_pos hv, Option.map_eq_some'] at h5
        obtain ⟨bar, hbar, rfl⟩ := h5
        exact ⟨rfl, rfl, bar, by rw [if_pos ⟨hc, hv⟩]; exact hbar, rfl⟩
      · rw [if_pos hc, if_neg hv] at h5
        cases h5
        exact ⟨rfl, rfl, [], by rw [if_neg (fun h => hv h.2)], by simp⟩
    · rw [if_neg hc] at h5
      cases h5
      exact ⟨rfl, rfl, [], by rw [if_neg (fun h => hc h.1)], by simp⟩
  obtain ⟨a1, a2, a3, a4, a5, a6⟩ := e2
  obtain ⟨b1, b2, b3, b4, b5, b6⟩ := e3
  obtain ⟨c1, c2, c3, c4, c5, c6⟩ := e4
  obtain ⟨d1, d2, d3⟩ := e5
  obtain ⟨f1, f2, bar, f3, f4⟩ := e6
  have hT : st'.searchRow.Title = st2.searchRow.Title := by rw [f2, d2, c3, b3]
  have hS : st'.searchRow.SubTitle = st3.searchRow.SubTitle := by rw [f2, d2, c4]
  refine ⟨?_, ?_, ?_, ?_, ?_, bar, f3, ?_⟩
  · rw [f1, d1, c1, b1, a1, z1]
  · rw [hT]; exact a6
  · rw [hS, ← a3]; exact b6
  · rw [f2, d2, ← a4, ← b4]; exact c6
  · rw [f2, d2, c5, b5, a5]
  · rw [f4, d3, c2, b2, a2, hT, c3, b3]

theorem isSome_bind_const {α β : Type} (o : Option α) (f : α → Option β) (b : Bool)
    (h : ∀ a, (f a).isSome = b) : (o.bind f).isSome = (o.isSome && b) := by
  cases o <;> simp [h]

theorem setTitle_isSome (c : GoString) (v : DocValue) (st : LoopState) :
    (setTitle c v st).isSome = (c ≠ colTitle || (assertString v).isSome) := by
  unfold setTitle
  by_cases h : c = colTitle <;> simp [h]

theorem setSubTitle_isSome (c : GoString) (v : DocValue) (st : LoopState) :
    (setSubTitle c v st).isSome = (c ≠ colSubtitle || (assertString v).isSome) := by
  unfold setSubTitle
  by_cases h : c = colSubtitle <;> simp [h]

theorem setPublished_isSome (c : GoString) (v : DocValue) (st : LoopState) :
    (setPublished c v st).isSome = (c ≠ colPublished || (assertBool v).isSome) := by
  unfold setPublished
  by_cases h : c = colPublished <;> simp [h]

theorem addTags_isSome (c : GoString) (v : DocValue) (st : LoopState) :
    (addTags c v st).isSome =
      (c ≠ colTags || v = DocValue.null || (tagWords v).isSome) := by
  unfold addTags
  by_cases h : c = colTags <;> by_cases hv : v = DocValue.null <;> simp [h, hv]

theorem colStep_isSome (st : LoopState) (x : GoString × Value) :
    (colStep st x).isSome = colOk x := by
  have h4 : ∀ st4, (addTags x.1 (docValue x.2) (addTitleWords st4)).isSome =
      (x.1 ≠ colTags || docValue x.2 = DocValue.null || (tagWords (docValue x.2)).isSome) :=
    fun st4 => addTags_isSome _ _ _
  have h3 : ∀ st3, ((setPublished x.1 (docValue x.2) st3).bind fun st4 =>
      addTags x.1 (docValue x.2) (addTitleWords st4)).isSome = _ :=
    fun st3 => (isSome_bind_const _ _ _ h4).trans
      (congrArg (fun b => b && _) (setPublished_isSome _ _ _))
  have h2 : ∀ st2, ((setSubTitle x.1 (docValue x.2) st2).bind fun st3 =>
      (setPublished x.1 (docValue x.2) st3).bind fun st4 =>
        addTags x.1 (docValue x.2) (addTitleWords st4)).isSome = _ :=
    fun st2 => (isSome_bind_const _ _ _ h3).trans
      (congrArg (fun b => b && _) (setSubTitle_isSome _ _ _))
  unfold colStep colOk
  simp only [Option.bind_eq_bind]
  rw [isSome_bind_const _ _ _ h2, setTitle_isSome]
  simp only [Bool.and_assoc]

theorem columnLoop_append (st : LoopState) (l : Row) (x : GoString × Value) :
    columnLoop st (l ++ [x]) = (columnLoop st l).bind (fun s => colStep s x) := by
  induction l generalizing st with
  | nil =>
    simp only [List.nil_append, columnLoop, Option.some_bind]
    cases colStep st x <;> rfl
  | cons y l ih =>
    simp only [List.cons_append, columnLoop]
    cases colStep st y with
    | none => rfl
    | some s => simp only [Option.some_bind]; exact ih s

theorem columnLoop_isSome (row : Row) :
    ∀ st : LoopState, (columnLoop st row).isSome = row.all colOk := by
  induction row with
  | nil => intro st; rfl
  | cons x rest ih =>
    intro st
    simp only [columnLoop, List.all_cons]
    rw [isSome_bind_const _ _ _ ih, colStep_isSome]

theorem columnLoop_keywordsField (row : Row) :
    ∀ st st' : LoopState, columnLoop st row = some st' →
      st'.searchRow.Keywords = st.searchRow.Keywords := by
  induction row with
  | nil => intro st st' h; cases h; rfl
  | cons x rest ih =>
    intro st st' h
    simp only [columnLoop, Option.bind_eq_some] at h
    obtain ⟨s, hs, hrest⟩ := h
    rw [ih s st' hrest, (colStep_fields st s x hs).2.2.2.2.1]

theorem colNames_distinct :
    colId ≠ colTitle ∧ colId ≠ colSubtitle ∧ colId ≠ colPublished ∧ colId ≠ colTags ∧
    colTitle ≠ colSubtitle ∧ colTitle ≠ colPublished ∧ colTitle ≠ colTags ∧
    colSubtitle ≠ colPublished ∧ colSubtitle ≠ colTags ∧ colPublished ≠ colTags := by
  decide

theorem rowInv_init : RowInv [] initLoop where
  docID_mem := by intro v h; cases h
  docID_absent := fun _ => rfl
  title_mem := by intro v h; cases h
  title_absent := fun _ => rfl
  subtitle_mem := by intro v h; cases h
  subtitle_absent := fun _ => rfl
  published_mem := by intro v h; cases h
  published_absent := fun _ => rfl
  keywordsField := rfl
  pool := by
    intro w
    constructor
    · intro h; cases h
    · rintro (⟨h, _⟩ | ⟨v, bar, h, _⟩)
      · exact absurd h (by decide)
      · cases h

/-- A field that the loop sets from the column `c`: the step of a further column keeps
the description of the field in terms of the row. -/
theorem field_step {α : Type} (c : GoString) (read : Value → Option α) (zero : α)
    (pre : Row) (x : GoString × Value) (old new : α)
    (hx : x.1 ∉ pre.map Prod.fst)
    (hmem : ∀ v, (c, v) ∈ pre → read v = some old)
    (habs : c ∉ pre.map Prod.fst → old = zero)
    (hstep : if x.1 = c then read x.2 = some new else new = old) :
    (∀ v, (c, v) ∈ pre ++ [x] → read v = some new) ∧
    (c ∉ (pre ++ [x]).map Prod.fst → new = zero) := by
  constructor
  · intro v hv
    rw [List.mem_append, List.mem_singleton] at hv
    rcases hv with hv | hv
    · have hc : x.1 ≠ c := by
        intro h
        apply hx
        rw [h]
        exact List.mem_map_of_mem Prod.fst hv
      rw [if_neg hc] at hstep
      rw [hstep]
      exact hmem v hv
    · subst hv
      simpa using hstep
  · intro h
    rw [List.map_append, List.mem_append, not_or] at h
    have hc : x.1 ≠ c := by
      intro h'
      apply h.2
      simp [h']
    rw [if_neg hc] at hstep
    rw [hstep]
    exact habs h.1

theorem rowInv_step (pre : Row) (x : GoString × Value) (st st' : LoopState)
    (hx : x.1 ∉ pre.map Prod.fst) (inv : RowInv pre st) (h : colStep st x = some st') :
    RowInv (pre ++ [x]) st' := by
  obtain ⟨hid, htitle, hsub, hpub, hkw, bar, hbar, hpool⟩ := colStep_fields st st' x h
  have fid := field_step colId (fun v => some (sprintV (docValue v))) [] pre x st.docID
    st'.docID hx (fun v hv => by rw [inv.docID_mem v hv]) inv.docID_absent
    (by by_cases hc : x.1 = colId
        · rw [if_pos hc] at hid ⊢; rw [hid]
        · rw [if_neg hc] at hid ⊢; exact hid)
  have ftitle := field_step colTitle (fun v => assertString (docValue v)) [] pre x
    st.searchRow.Title st'.searchRow.Title hx inv.title_mem inv.title_absent htitle
  have fsub := field_step colSubtitle (fun v => assertString (docValue v)) [] pre x
    st.searchRow.SubTitle st'.searchRow.SubTitle hx inv.subtitle_mem inv.subtitle_absent hsub
  have fpub := field_step colPublished (fun v => assertBool (docValue v)) false pre x
    st.searchRow.Published st'.searchRow.Published hx inv.published_mem inv.published_absent hpub
  refine ⟨fun v hv => ?_, fid.2, ftitle.1, ftitle.2, fsub.1, fsub.2, fpub.1, fpub.2, ?_, ?_⟩
  · exact (Option.some.inj (fid.1 v hv)).symm
  · rw [hkw]; exact inv.keywordsField
  · intro w
    rw [hpool, List.mem_append, List.mem_append, inv.pool w]
    have hTitle : 0 < st.searchRow.Title.length → st'.searchRow.Title = st.searchRow.Title := by
      intro hpos
      by_cases hc : x.1 = colTitle
      · exfalso
        have := inv.title_absent (hc ▸ hx)
        rw [this] at hpos
        exact absurd hpos (by decide)
      · rw [if_neg hc] at htitle
        exact htitle
    constructor
    · rintro ((h1 | h1) | h1)
      · rcases h1 with ⟨hpos, hw⟩ | ⟨v, b, hv, hnn, htw, hw⟩
        · left
          rw [hTitle hpos]
          exact ⟨hpos, hw⟩
        · right
          exact ⟨v, b, List.mem_append_left _ hv, hnn, htw, hw⟩
      · left
        by_cases hpos : 0 < st'.searchRow.Title.length
        · rw [if_pos hpos] at h1
          exact ⟨hpos, h1⟩
        · rw [if_neg hpos] at h1
          cases h1
      · right
        by_cases hc : x.1 = colTags ∧ docValue x.2 ≠ DocValue.null
        · rw [if_pos hc] at hbar
          refine ⟨x.2, bar, ?_, hc.2, hbar, h1⟩
          rw [← hc.1]
          simp
        · rw [if_neg hc] at hbar
          rw [hbar] at h1
          cases h1
    · rintro (⟨hpos, hw⟩ | ⟨v, b, hv, hnn, htw, hw⟩)
      · left; right
        rw [if_pos hpos]
        exact hw
      · rw [List.mem_append, List.mem_singleton] at hv
        rcases hv with hv | hv
        · left; left; right
          exact ⟨v, b, hv, hnn, htw, hw⟩
        · right
          have hc : x.1 = colTags ∧ docValue x.2 ≠ DocValue.null := by
            rw [← hv]
            exact ⟨rfl, hnn⟩
          rw [if_pos hc] at hbar
          rw [← hv] at hbar
          rw [htw] at hbar
          cases hbar
          exact hw

theorem columnLoop_inv (row : Row) (hnd : (row.map Prod.fst).Nodup) :
    ∀ st, columnLoop initLoop row = some st → RowInv row st := by
  induction row using List.reverseRecOn with
  | nil =>
    intro st h
    cases h
    exact rowInv_init
  | append_singleton pre x ih =>
    intro st h
    rw [columnLoop_append, Option.bind_eq_some] at h
    obtain ⟨s, hs, hstep⟩ := h
    rw [List.map_append, List.nodup_append] at hnd
    obtain ⟨hpre, _, hdisj⟩ := hnd
    have hx : x.1 ∉ pre.map Prod.fst := fun hmem => hdisj hmem (by simp)
    exact rowInv_step pre x s st hx (ih hpre s hs) hstep

/-- A field described by `field_step` has the same value for two orderings of a row. -/
theorem field_unique {α : Type} (c : GoString) (read : Value → Option α) (zero : α)
    (row row' : Row) (a a' : α) (hperm : row.Perm row')
    (hmem : ∀ v, (c, v) ∈ row → read v = some a) (habs : c ∉ row.map Prod.fst → a = zero)
    (hmem' : ∀ v, (c, v) ∈ row' → read v = some a')
    (habs' : c ∉ row'.map Prod.fst → a' = zero) : a = a' := by
  by_cases hc : c ∈ row.map Prod.fst
  · rw [List.mem_map] at hc
    obtain ⟨⟨c0, v⟩, hin, hc0⟩ := hc
    simp only at hc0
    subst hc0
    exact Option.some.inj ((hmem v hin).symm.trans (hmem' v (hperm.mem_iff.mp hin)))
  · have hc' : c ∉ row'.map Prod.fst := fun h => hc ((hperm.map Prod.fst).mem_iff.mpr h)
    rw [habs hc, habs' hc']

theorem SearchRecord.eq_of_fields (a b : SearchRecord) (h1 : a.Title = b.Title)
    (h2 : a.SubTitle = b.SubTitle) (h3 : a.Keywords = b.Keywords)
    (h4 : a.Published = b.Published) : a = b := by
  cases a; cases b
  simp only at h1 h2 h3 h4
  rw [h1, h2, h3, h4]

theorem rowInv_unique (row row' : Row) (st st' : LoopState) (hperm : row.Perm row')
    (inv : RowInv row st) (inv' : RowInv row' st') :
    st.docID = st'.docID ∧ st.searchRow = st'.searchRow ∧
      ∀ w, w ∈ st.keywords ↔ w ∈ st'.keywords := by
  have hid : st.docID = st'.docID :=
    field_unique colId (fun v => some (sprintV (docValue v))) [] row row' _ _ hperm
      (fun v hv => by rw [inv.docID_mem v hv]) inv.docID_absent
      (fun v hv => by rw [inv'.docID_mem v hv]) inv'.docID_absent
  have htitle : st.searchRow.Title = st'.searchRow.Title :=
    field_unique colTitle (fun v => assertString (docValue v)) [] row row' _ _ hperm
      inv.title_mem inv.title_absent inv'.title_mem inv'.title_absent
  have hsub : st.searchRow.SubTitle = st'.searchRow.SubTitle :=
    field_unique colSubtitle (fun v => assertString (docValue v)) [] row row' _ _ hperm
      inv.subtitle_mem inv.subtitle_absent inv'.subtitle_mem inv'.subtitle_absent
  have hpub : st.searchRow.Published = st'.searchRow.Published :=
    field_unique colPublished (fun v => assertBool (docValue v)) false row row' _ _ hperm
      inv.published_mem inv.published_absent inv'.published_mem inv'.published_absent
  refine ⟨hid, SearchRecord.eq_of_fields _ _ htitle hsub ?_ hpub, ?_⟩
  · rw [inv.keywordsField, inv'.keywordsField]
  · intro w
    rw [inv.pool w, inv'.pool w, htitle]
    constructor
    · rintro (h | ⟨v, bar, hv, hrest⟩)
      · exact Or.inl h
      · exact Or.inr ⟨v, bar, hperm.mem_iff.mp hv, hrest⟩
    · rintro (h | ⟨v, bar, hv, hrest⟩)
      · exact Or.inl h
      · exact Or.inr ⟨v, bar, hperm.mem_iff.mpr hv, hrest⟩

theorem mem_exactKeys (f : GoString → GoString) (pool : List GoString) (t : GoString) :
    t ∈ exactKeys (pool.map f) ↔ ∃ p, p ∈ pool ∧ t ∈ split spaceByte (f p) := by
  unfold exactKeys
  simp only [List.mem_flatMap, List.mem_map]
  constructor
  · rintro ⟨_, ⟨p, hp, rfl⟩, ht⟩
    exact ⟨p, hp, ht⟩
  · rintro ⟨p, hp, ht⟩
    exact ⟨f p, ⟨p, hp, rfl⟩, ht⟩

theorem mem_searchKeys (f : GoString → GoString) (pool : List GoString) (t : GoString) :
    t ∈ searchKeys (pool.map f) ↔
      ∃ p, p ∈ pool ∧ ∃ w, w ∈ split spaceByte (f p) ∧ t ∈ wordTokens w := by
  unfold searchKeys
  simp only [List.mem_flatMap, List.mem_map]
  constructor
  · rintro ⟨w, ⟨_, ⟨p, hp, rfl⟩, hw⟩, ht⟩
    exact ⟨p, hp, w, hw, ht⟩
  · rintro ⟨p, hp, w, hw, ht⟩
    exact ⟨w, ⟨f p, ⟨p, hp, rfl⟩, hw⟩, ht⟩

theorem keys_congr (f : GoString → GoString) {pool pool' : List GoString}
    (h : ∀ w, w ∈ pool ↔ w ∈ pool') :
    sortedKeys (searchKeys (pool.map f)) = sortedKeys (searchKeys (pool'.map f)) ∧
    sortedKeys (exactKeys (pool.map f)) = sortedKeys (exactKeys (pool'.map f)) := by
  constructor
  · apply sortedKeys_congr
    intro t
    rw [mem_searchKeys, mem_searchKeys]
    constructor
    · rintro ⟨p, hp, rest⟩; exact ⟨p, (h p).mp hp, rest⟩
    · rintro ⟨p, hp, rest⟩; exact ⟨p, (h p).mpr hp, rest⟩
  · apply sortedKeys_congr
    intro t
    rw [mem_exactKeys, mem_exactKeys]
    constructor
    · rintro ⟨p, hp, rest⟩; exact ⟨p, (h p).mp hp, rest⟩
    · rintro ⟨p, hp, rest⟩; exact ⟨p, (h p).mpr hp, rest⟩

theorem transformRow_isSome (mapLower : GoString → GoString) (row : Row) :
    (transformRow mapLower row).isSome = row.all colOk := by
  unfold transformRow
  rw [Option.isSome_map', columnLoop_isSome]

theorem all_colOk_perm {row row' : Row} (hperm : row.Perm row') :
    row.all colOk = row'.all colOk := by
  rw [List.all_eq, List.all_eq]
  congr 1
  apply propext
  constructor
  · intro h x hx; exact h x (hperm.mem_iff.mpr hx)
  · intro h x hx; exact h x (hperm.mem_iff.mp hx)

/-- The order `<` of Go strings used below is the lexicographic order of the bytes. -/
theorem goString_lt_iff_lex (s t : GoString) : s < t ↔ List.Lex (· < ·) s t := Iff.rfl

/-- C9: for a row with distinct column names, two orderings of the columns give the same
result of lines 124-208 (document key, search record with its keywords, content
keywords); and the loop ends without panic exactly when every column holds a value it
accepts, which is so for a string title and a nil or well-formed tags value beside a
string subtitle and a bool published flag. -/
theorem transformRow_perm (mapLower : GoString → GoString) (row row' : Row)
    (hperm : row.Perm row') (hnd : (row.map Prod.fst).Nodup) :
    transformRow mapLower row = transformRow mapLower row' ∧
      (transformRow mapLower row).isSome = row.all colOk := by
  refine ⟨?_, transformRow_isSome mapLower row⟩
  have hnd' : (row'.map Prod.fst).Nodup := (hperm.map Prod.fst).nodup_iff.mp hnd
  have hsome := columnLoop_isSome row initLoop
  have hsome' := columnLoop_isSome row' initLoop
  rw [← all_colOk_perm hperm] at hsome'
  unfold transformRow
  cases h : columnLoop initLoop row with
  | none =>
    cases h' : columnLoop initLoop row' with
    | none => rfl
    | some st' =>
      rw [h] at hsome
      rw [h', ← hsome] at hsome'
      cases hsome'
  | some st =>
    cases h' : columnLoop initLoop row' with
    | none =>
      rw [h] at hsome
      rw [h', ← hsome] at hsome'
      cases hsome'
    | some st' =>
      obtain ⟨hid, hrow, hpool⟩ :=
        rowInv_unique row row' st st' hperm (columnLoop_inv row hnd st h)
          (columnLoop_inv row' hnd' st' h')
      obtain ⟨hs, he⟩ := keys_congr (toLower mapLower) hpool
      simp only [Option.map_some', hid, hrow, hs, he]

/-- C3: for every row that lines 124-208 process, `SearchRecord.Keywords` and
`ContentRecord.Keywords` are strictly ascending in the lexicographic order of Go strings,
hence sorted and without duplicates. -/
theorem keywords_strictly_ascending (mapLower : GoString → GoString) (row : Row)
    (r : RowResult) (h : transformRow mapLower row = some r) :
    r.searchRow.Keywords.Sorted (· < ·) ∧ r.contentKeywords.Sorted (· < ·) := by
  unfold transformRow at h
  rw [Option.map_eq_some'] at h
  obtain ⟨st, hst, rfl⟩ := h
  have hk : st.searchRow.Keywords = [] := columnLoop_keywordsField row initLoop st hst
  simp only [hk, List.nil_append]
  exact ⟨sortedKeys_sorted_lt _, sortedKeys_sorted_lt _⟩

theorem transformRow_perm_witness :
    algebraRow.Perm algebraRowReordered ∧ (algebraRow.map Prod.fst).Nodup ∧
      transformRow id algebraRow = transformRow id algebraRowReordered ∧
      (transformRow id algebraRow).isSome = true :=
  ⟨by decide, by decide,
   (transformRow_perm id algebraRow algebraRowReordered (by decide) (by decide)).1,
   (transformRow_perm id algebraRow algebraRowReordered (by decide) (by decide)).2.trans
     (by decide)⟩

theorem algebraRow_result :
    transformRow id algebraRow = some
      { docID := utf8 "42",
        searchRow :=
          { Title := utf8 "Intro to Algebra", SubTitle := utf8 "Basics", Published := true,
            Keywords := [utf8 "al", utf8 "alg", utf8 "alge", utf8 "algeb", utf8 "algebr",
              utf8 "algebra", utf8 "ge", utf8 "geo", utf8 "geom", utf8 "geome", utf8 "geomet",
              utf8 "geometry", utf8 "in", utf8 "int", utf8 "intr", utf8 "intro", utf8 "to"] },
        contentKeywords := [utf8 "algebra", utf8 "geometry", utf8 "intro", utf8 "to"] } := by
  decide

theorem keywords_strictly_ascending_witness :
    (∃ r, transformRow id algebraRow = some r) ∧
      List.Sorted (· < ·) [utf8 "algebra", utf8 "geometry", utf8 "intro", utf8 "to"] :=
  ⟨⟨_, algebraRow_result⟩, (keywords_strictly_ascending id algebraRow _ algebraRow_result).2⟩

/-! ## Content keywords in terms of title and tags -/

theorem split_no_sep (sep : Nat) : ∀ (s k : GoString), k ∈ split sep s → sep ∉ k
  | [], k, h => by
    simp only [split, List.mem_singleton] at h
    rw [h]
    exact List.not_mem_nil _
  | c :: s, k, h => by
    unfold split at h
    by_cases hc : c = sep
    · rw [if_pos hc, List.mem_cons] at h
      rcases h with h | h
      · rw [h]; exact List.not_mem_nil _
      · exact split_no_sep sep s k h
    · rw [if_neg hc] at h
      cases hs : split sep s with
      | nil =>
        rw [hs] at h
        simp only [List.mem_singleton] at h
        rw [h]
        simp only [List.mem_singleton]
        exact fun e => hc e.symm
      | cons p ps =>
        rw [hs] at h
        simp only [List.mem_cons] at h
        rcases h with h | h
        · rw [h, List.mem_cons, not_or]
          exact ⟨fun e => hc e.symm, split_no_sep sep s p (by rw [hs]; simp)⟩
        · exact split_no_sep sep s k (by rw [hs]; simp [h])

theorem tagWords_string (g : GoString) (h : 2 ≤ g.length) :
    tagWords (DocValue.string g) = some (split commaByte (g.drop 1).dropLast) := by
  have h1 : sliceFrom g 1 = some (g.drop 1) := by
    unfold sliceFrom
    rw [if_pos ⟨by decide, by exact_mod_cast (by omega : 1 ≤ g.length)⟩]
    rfl
  have hlen : (g.drop 1).length = g.length - 1 := List.length_drop 1 g
  have h2 : sliceTo (g.drop 1) (((g.drop 1).length : Int) - 1) = some (g.drop 1).dropLast := by
    unfold sliceTo
    rw [if_pos ⟨by omega, by omega⟩, List.dropLast_eq_take]
    congr 2
    omega
  unfold tagWords assertString
  simp only [Option.bind_eq_bind, Option.some_bind, h1, h2]
  rfl

theorem value_of_column {row : Row} (hnd : (row.map Prod.fst).Nodup) {c : GoString}
    {v v' : Value} (h : (c, v) ∈ row) (h' : (c, v') ∈ row) : v = v' := by
  have := List.inj_on_of_nodup_map hnd h h' rfl
  exact (Prod.mk.inj this).2

/-- C2 as amended: for a row with distinct column names that the loop accepts, with the
title `t` and a tags string `g` of at least three bytes (so that something is left of it
without its first and last byte), the transformation returns, and
`ContentRecord.Keywords` holds exactly the pieces obtained by splitting on the space byte
the lower-cased phrases, the phrases being the pieces of a non-empty title between spaces
and the pieces between commas of `g` without its first and last byte; no keyword has a
space byte. -/
theorem contentKeywords_spec (mapLower : GoString → GoString) (row : Row) (t g : GoString)
    (vt vg : Value) (hnd : (row.map Prod.fst).Nodup) (hok : row.all colOk = true)
    (ht : (colTitle, vt) ∈ row) (hvt : docValue vt = DocValue.string t)
    (hg : (colTags, vg) ∈ row) (hvg : docValue vg = DocValue.string g)
    (hlen : 3 ≤ g.length) :
    ∃ r, transformRow mapLower row = some r ∧
      (∀ k, k ∈ r.contentKeywords ↔
        ∃ phrase, (phrase ∈ (if t = [] then [] else split spaceByte t) ∨
            phrase ∈ split commaByte (g.drop 1).dropLast) ∧
          k ∈ split spaceByte (toLower mapLower phrase)) ∧
      (∀ k, k ∈ r.contentKeywords → spaceByte ∉ k) ∧
      r.contentKeywords.Sorted (· < ·) := by
  have hsome := columnLoop_isSome row initLoop
  rw [hok, Option.isSome_iff_exists] at hsome
  obtain ⟨st, hst⟩ := hsome
  have inv := columnLoop_inv row hnd st hst
  have hT : st.searchRow.Title = t := by
    have := inv.title_mem vt ht
    rw [hvt] at this
    exact (Option.some.inj this).symm
  have hmem : ∀ k, k ∈ sortedKeys (exactKeys (st.keywords.map (toLower mapLower))) ↔
      ∃ phrase, (phrase ∈ (if t = [] then [] else split spaceByte t) ∨
          phrase ∈ split commaByte (g.drop 1).dropLast) ∧
        k ∈ split spaceByte (toLower mapLower phrase) := by
    intro k
    rw [mem_sortedKeys, mem_exactKeys]
    constructor
    · rintro ⟨p, hp, hk⟩
      refine ⟨p, ?_, hk⟩
      rw [inv.pool p, hT] at hp
      rcases hp with ⟨hpos, hp⟩ | ⟨v, bar, hv, _, hbar, hp⟩
      · left
        rw [if_neg (fun e => by rw [e] at hpos; exact absurd hpos (by decide))]
        exact hp
      · right
        rw [← value_of_column hnd hg hv, hvg, tagWords_string g (by omega)] at hbar
        rw [Option.some.inj hbar]
        exact hp
    · rintro ⟨p, hp, hk⟩
      refine ⟨p, ?_, hk⟩
      rw [inv.pool p, hT]
      rcases hp with hp | hp
      · left
        by_cases e : t = []
        · rw [if_pos e] at hp; cases hp
        · rw [if_neg e] at hp
          exact ⟨List.length_pos.mpr e, hp⟩
      · right
        refine ⟨vg, _, hg, ?_, ?_, hp⟩
        · rw [hvg]; exact fun e => by cases e
        · rw [hvg]; exact tagWords_string g (by omega)
  refine ⟨_, by unfold transformRow; rw [hst]; rfl, ?_, ?_, ?_⟩
  · exact hmem
  · intro k hk
    obtain ⟨p, _, hk'⟩ := (hmem k).mp hk
    exact split_no_sep spaceByte _ k hk'
  · exact sortedKeys_sorted_lt _

theorem contentKeywords_spec_witness :
    (∃ r, transformRow id algebraRow = some r ∧
      (∀ k, k ∈ r.contentKeywords ↔
        ∃ phrase, (phrase ∈ (if utf8 "Intro to Algebra" = [] then []
              else split spaceByte (utf8 "Intro to Algebra")) ∨
            phrase ∈ split commaByte
              ((utf8 "\x7balgebra,geometry\x7d").drop 1).dropLast) ∧
          k ∈ split spaceByte (toLower id phrase)) ∧
      (∀ k, k ∈ r.contentKeywords → spaceByte ∉ k) ∧
      r.contentKeywords.Sorted (· < ·)) ∧
    (transformRow id algebraRow).map RowResult.contentKeywords =
      some [utf8 "algebra", utf8 "geometry", utf8 "intro", utf8 "to"] :=
  ⟨contentKeywords_spec id algebraRow (utf8 "Intro to Algebra")
      (utf8 "\x7balgebra,geometry\x7d") (Value.string (utf8 "Intro to Algebra"))
      (Value.bytes (utf8 "\x7balgebra,geometry\x7d")) (by decide) (by decide) (by decide) rfl
      (by decide) rfl (by decide),
   by decide⟩

/-- Counterexample to C2: with the title `a  b` followed by a tab and `c` (two spaces
between `a` and `b`) and the tags `{x}`, the content keywords hold the empty string and
a keyword with a tab in it.  The input is ASCII, so that `toLower` leaves its parameter
unused. -/
theorem contentKeywords_empty_and_tab :
    (transformRow id
        [(colTitle, Value.string (utf8 "a  b\tc")),
          (colTags, Value.string (utf8 "\x7bx\x7d"))]).map RowResult.contentKeywords =
      some [[], utf8 "a", utf8 "b\tc", utf8 "x"] := by
  decide

/-- The defect behind C5, on the rows with the title `Vectors`: the tags value `""` and
the one-byte tags value `x` make lines 173-174 panic, and the tags value `{}` adds the
empty string to both keyword lists, which without tags hold no empty string. -/
theorem short_tags_panic :
    transformRow id [(colTitle, Value.string (utf8 "Vectors")),
        (colTags, Value.string [])] = none ∧
    transformRow id [(colTitle, Value.string (utf8 "Vectors")),
        (colTags, Value.string (utf8 "x"))] = none ∧
    (transformRow id [(colTitle, Value.string (utf8 "Vectors")),
        (colTags, Value.string (utf8 "\x7b\x7d"))]).map RowResult.contentKeywords =
      some [[], utf8 "vectors"] ∧
    (transformRow id [(colTitle, Value.string (utf8 "Vectors"))]).map
        RowResult.contentKeywords = some [utf8 "vectors"] := by
  decide

/-! ## The migration loop -/

/-- The defect behind C7: one row with the id 1, a store that accepts the search write
and rejects the content write.  The run counts the row as written although its content
write failed. -/
theorem content_write_failure_is_counted :
    (run id searchOnlySink noChunks ()
        [some [(colId, Value.int64 1), (colTitle, Value.string (utf8 "A"))]]).count = 1 ∧
    writeLog (run id searchOnlySink noChunks ()
        [some [(colId, Value.int64 1), (colTitle, Value.string (utf8 "A"))]]) =
      [(searchCollection, utf8 "1", true), (contentCollection, utf8 "1", false)] := by
  decide

/-- The defect behind C8, with a store that accepts every write.  A result set with the
one column `title` and the rows `A` and `B`: no row is skipped, each is written to both
collections under the empty key (the second over the first) and both are counted.  A
result set with the columns `id` and `title` and the one row with a null `id`: the row is
written under the key `<nil>` and counted. -/
theorem rows_without_id_are_written :
    (run id acceptingSink noChunks ()
        [some [(colTitle, Value.string (utf8 "A"))],
          some [(colTitle, Value.string (utf8 "B"))]]).count = 2 ∧
    writeLog (run id acceptingSink noChunks ()
        [some [(colTitle, Value.string (utf8 "A"))],
          some [(colTitle, Value.string (utf8 "B"))]]) =
      [(searchCollection, [], true), (contentCollection, [], true),
        (searchCollection, [], true), (contentCollection, [], true)] ∧
    (run id acceptingSink noChunks ()
        [some [(colId, Value.null), (colTitle, Value.string (utf8 "B"))]]).count = 1 ∧
    writeLog (run id acceptingSink noChunks ()
        [some [(colId, Value.null), (colTitle, Value.string (utf8 "B"))]]) =
      [(searchCollection, utf8 "<nil>", true), (contentCollection, utf8 "<nil>", true)] := by
  decide

theorem split_ne_nil (sep : Nat) : ∀ s : GoString, split sep s ≠ []
  | [] => by simp [split]
  | c :: s => by
    unfold split
    split
    · exact List.cons_ne_nil _ _
    · split <;> exact List.cons_ne_nil _ _

/-- Joining the pieces of `split` with the separator gives the string back: together
with `split_no_sep` this is what `strings.Split` returns for a one-byte separator. -/
theorem split_intercalate (sep : Nat) : ∀ s : GoString, [sep].intercalate (split sep s) = s
  | [] => by simp [split, List.intercalate]
  | c :: s => by
    have ih := split_intercalate sep s
    unfold split
    cases hs : split sep s with
    | nil => exact absurd hs (split_ne_nil sep s)
    | cons p ps =>
      rw [hs] at ih
      by_cases hc : c = sep
      · rw [if_pos hc]
        simp only [List.intercalate, List.intersperse] at ih ⊢
        simpa [List.flatten, hc] using ih
      · rw [if_neg hc]
        cases ps with
        | nil =>
          simp only [List.intercalate, List.intersperse] at ih ⊢
          simpa [List.flatten] using ih
        | cons q qs =>
          simp only [List.intercalate, List.intersperse] at ih ⊢
          simpa [List.flatten] using ih

theorem rowStep_count {σ : Type} (mapLower : GoString → GoString) (sink : Sink σ)
    (query : GoString → Option (List (Option Row))) (st : RunState σ) (row : Option Row)
    (h : st.count = (st.issued.filter isSearchSuccess).length) :
    (rowStep mapLower sink query st row).count =
      ((rowStep mapLower sink query st row).issued.filter isSearchSuccess).length := by
  cases row with
  | none => simpa only [rowStep] using h
  | some row =>
    cases hT : transformRow mapLower row with
    | none => simpa only [rowStep, hT] using h
    | some r =>
      cases hC : makeContent query r.docID with
      | none => simpa only [rowStep, hT, writeRow, hC] using h
      | some chunks =>
        have e1 : (searchWrite r).collection = searchCollection := rfl
        have e2 : (contentWrite r chunks).collection = contentCollection := rfl
        by_cases hw : (sink.write st.store (searchWrite r)).2 = true
        · have hne : contentCollection ≠ searchCollection := by decide
          simp [rowStep, hT, writeRow, hC, hw, h, isSearchSuccess, List.filter_cons, hne,
            e1, e2]
        · simp [rowStep, hT, writeRow, hC, hw, h, isSearchSuccess, List.filter_cons]

theorem migrate_count {σ : Type} (mapLower : GoString → GoString) (sink : Sink σ)
    (query : GoString → Option (List (Option Row))) (rows : List (Option Row)) :
    ∀ st : RunState σ, st.count = (st.issued.filter isSearchSuccess).length →
      (migrate mapLower sink query st rows).count =
        ((migrate mapLower sink query st rows).issued.filter isSearchSuccess).length := by
  induction rows with
  | nil => intro st h; exact h
  | cons r rest ih =>
    intro st h
    unfold migrate
    simp only []
    split
    · exact rowStep_count mapLower sink query st r h
    · exact ih _ (rowStep_count mapLower sink query st r h)

/-- What the loop counts: the final `count` is the number of successful writes to the
search collection, whatever the outcome of the content writes. -/
theorem run_count {σ : Type} (mapLower : GoString → GoString) (sink : Sink σ)
    (query : GoString → Option (List (Option Row))) (store : σ) (rows : List (Option Row)) :
    (run mapLower sink query store rows).count =
      ((run mapLower sink query store rows).issued.filter isSearchSuccess).length :=
  migrate_count mapLower sink query rows _ rfl

end Pg2fs
